import Mathlib

/-!
Verification of the bee2 one-time-password mechanisms (botp.h) and the
STB 34.101.47 pseudorandom generators (brng.h).

The repository sources available for analysis are the two interface headers
`include/bee2/crypto/botp.h` and `include/bee2/crypto/brng.h`; the
implementation files (botp.c, brng.c, the belt keyed hash) are not part of
the analysed sources.  Following the header contracts and the specification,
the function bodies are modelled here as executable Lean definitions; the
external keyed-hash capability `MAC(key, data) -> tag` and the CTR block
transform are taken as parameters, exactly as the specification treats them
(out-of-scope capabilities).

Octets are modelled as natural numbers (values < 256 where relevant),
octet strings as `List Nat`, and decimal passwords as lists of digits.
-/

/-- Error codes returned by the high-level tier (the `err_t` values used in
botp.h and brng.h contracts). -/
inductive Err where
  | ERR_OK
  | ERR_BAD_INPUT
  | ERR_BAD_PARAMS
  | ERR_BAD_PWD
deriving DecidableEq

/-- Value of a big-endian digit string in base `b`. -/
def baseToNat (b : Nat) (xs : List Nat) : Nat :=
  xs.foldl (fun a x => a * b + x) 0

/-- Big-endian digit string of length `len` representing `n % b ^ len`. -/
def natToBase (b : Nat) : Nat → Nat → List Nat
  | 0, _ => []
  | l + 1, n => natToBase b l (n / b) ++ [n % b]

/-- The keyed-hash capability `MAC(key, data) -> tag` consumed by the OTP and
HMAC-PRG mechanisms.  It is external to the analysed sources and is therefore
a parameter of the embedding. -/
abbrev Mac := List Nat → List Nat → List Nat

/-- Modelled from the spec: botp.c is not among the analysed sources; the
password is "derived deterministically from a MAC tag via the standard
truncation-and-modulo transform (dynamic truncation + mod 10^d)".  This is
the RFC 4226 dynamic truncation of a tag: the low nibble of the last octet
selects an offset, and four octets starting there (top bit cleared) form a
31-bit integer. -/
def dynTrunc (tag : List Nat) : Nat :=
  (((tag.getD (tag.getLastD 0 % 16) 0 % 128) * 256 +
      tag.getD (tag.getLastD 0 % 16 + 1) 0) * 256 +
      tag.getD (tag.getLastD 0 % 16 + 2) 0) * 256 +
    tag.getD (tag.getLastD 0 % 16 + 3) 0

/-- Modelled from the spec: the candidate password of `d` decimal digits
computed from the state key and an 8-octet counter string. -/
def hotpPwd (mac : Mac) (state : List Nat) (d : Nat) (ctr : List Nat) : List Nat :=
  natToBase 10 d (dynTrunc (mac state ctr) % 10 ^ d)

/-- Modelled from the spec: the HOTP counter is an 8-octet big-endian string
incremented modulo 2^64 ("Инкремент выполняется по модулю 2^64"). -/
def ctrIncr (ctr : List Nat) : List Nat :=
  natToBase 256 8 ((baseToNat 256 ctr + 1) % 2 ^ 64)

/-- Modelled from the spec: botpHOTPStart derives the internal MAC key
material from the supplied key; the state is modelled as the key itself
(the MAC capability consumes it directly). -/
def botpHOTPStart (key : List Nat) : List Nat := key

/-- Modelled from the spec: botpHOTPStepG generates the `digit`-character
password at the current counter and then increments the counter modulo 2^64.
Returns (password, updated counter). -/
def botpHOTPStepG (mac : Mac) (digit : Nat) (ctr : List Nat) (state : List Nat) :
    List Nat × List Nat :=
  (hotpPwd mac state digit ctr, ctrIncr ctr)

/-- Modelled from the spec: the verification search of botpHOTPStepV.  The
candidate password at the current counter is compared with `otp`; on mismatch
the counter is incremented and the probe repeated, up to `attempts` extra
times.  Returns the counter following the matching position, or none. -/
def hotpSearch (mac : Mac) (state otp : List Nat) : List Nat → Nat → Option (List Nat)
  | ctr, 0 =>
      if hotpPwd mac state otp.length ctr = otp then some (ctrIncr ctr) else none
  | ctr, a + 1 =>
      if hotpPwd mac state otp.length ctr = otp then some (ctrIncr ctr)
      else hotpSearch mac state otp (ctrIncr ctr) a

/-- Modelled from the spec: botpHOTPStepV returns a success flag and the
resulting counter: the counter following the successful position on a match,
the unchanged input counter otherwise ("Если совпадение не обнаружено, то ctr
не изменится"). -/
def botpHOTPStepV (mac : Mac) (otp ctr : List Nat) (attempts : Nat) (state : List Nat) :
    Bool × List Nat :=
  match hotpSearch mac state otp ctr attempts with
  | some c => (true, c)
  | none => (false, ctr)

/-- Modelled from the spec: the high-level botpHOTPVerify validates that `otp`
is all-decimal of length in [6,8] (ERR_BAD_PWD otherwise) and attempts < 10
(ERR_BAD_PARAMS otherwise), then runs Start + StepV on a transient state;
ERR_OK exactly when the password matched. -/
def botpHOTPVerify (mac : Mac) (otp key ctr : List Nat) (attempts : Nat) :
    Err × List Nat :=
  if ∀ x ∈ otp, x < 10 then
    if 6 ≤ otp.length ∧ otp.length ≤ 8 then
      if attempts < 10 then
        match botpHOTPStepV mac otp ctr attempts (botpHOTPStart key) with
        | (true, c) => (Err.ERR_OK, c)
        | (false, c) => (Err.ERR_BAD_PWD, c)
      else (Err.ERR_BAD_PARAMS, ctr)
    else (Err.ERR_BAD_PWD, ctr)
  else (Err.ERR_BAD_PWD, ctr)

/-- Modelled from the spec: a TOTP rounded time stamp is "interpreted as a
HOTP-style counter modulo 2^64", i.e. encoded as the 8-octet big-endian
counter of its value reduced modulo 2^64. -/
def totpCtr (t : Int) : List Nat :=
  natToBase 256 8 (t % (2 ^ 64 : Int)).toNat

/-- Modelled from the spec: botpTOTPStart, like botpHOTPStart, expands the key
into the state; the state is modelled as the key itself. -/
def botpTOTPStart (key : List Nat) : List Nat := key

/-- Modelled from the spec: botpTOTPStepG maps the rounded time stamp to an
8-octet counter and derives the password as in HOTP; no counter is returned
to the caller. -/
def botpTOTPStepG (mac : Mac) (digit : Nat) (t : Nat) (state : List Nat) : List Nat :=
  hotpPwd mac state digit (totpCtr (t : Int))

/-- Modelled from the spec: botp.c is not among the analysed sources; the
probe offsets of the TOTP verification search, in the order given by the
specification: "0, -1, +1, -2, +2, ..., -attemptsBackward, +attemptsForward"
(exact time stamp first, then alternating backward/forward outward, a side
dropping out once its attempt bound is exhausted). -/
def totpOffsets (bwd fwd : Nat) : List Int :=
  0 :: (List.range (max bwd fwd)).flatMap fun m =>
    (if m < bwd then [-(m + 1 : Int)] else []) ++ (if m < fwd then [(m + 1 : Int)] else [])

/-- Modelled from the spec: botpTOTPStepV probes the time stamps
(t + i) mod 2^64 for the offsets i in `totpOffsets`, comparing the candidate
password of strLen(otp) characters at each, until a match is found or the
interval is exhausted. -/
def botpTOTPStepV (mac : Mac) (otp : List Nat) (t : Nat) (bwd fwd : Nat)
    (state : List Nat) : Bool :=
  (totpOffsets bwd fwd).any fun i =>
    decide (hotpPwd mac state otp.length (totpCtr ((t : Int) + i)) = otp)

/-- Rank of a probe offset in the alternating outward order: offset 0 has
rank 0, and magnitude m gives rank 2m for the backward probe and 2m+1 for the
forward probe. -/
def probeRank (i : Int) : Nat :=
  2 * i.natAbs + (if 0 < i then 1 else 0)

/-- State of the CTR-mode generator: the 32-octet key, the current
synchronization value as a number modulo 2^256, and the unconsumed octets of
the last generated 32-octet block. -/
structure BrngCTRState where
  theta : List Nat
  iv : Nat
  reserved : List Nat
deriving DecidableEq

/-- Number of 32-octet blocks needed to produce `n` fresh octets. -/
def blocksFor (n : Nat) : Nat := (n + 31) / 32

/-- Modelled from the spec: brng.c is not among the analysed sources; the
core block loop of brngCTRStepR.  Blocks are produced in 32-octet units; per
fresh block the synchronization value "evolves monotonically", modelled as
+1 modulo 2^256, and the block is computed by the external block transform
`G theta iv X`, where the auxiliary word X is taken from the initial contents
of the corresponding octets of the caller's buffer, zero-padded to 32 octets.
The unconsumed tail of the last block becomes the new reserve.  The first
argument is structural recursion fuel (`rest.length` suffices). -/
def ctrGenB (G : List Nat → Nat → List Nat → List Nat) (theta : List Nat) :
    Nat → Nat → List Nat → List Nat × Nat × List Nat
  | 0, iv, _ => ([], iv, [])
  | _ + 1, iv, [] => ([], iv, [])
  | fuel + 1, iv, x :: rest =>
      let cur := x :: rest
      let iv1 := (iv + 1) % 2 ^ 256
      let blk := G theta iv1 (cur.take 32 ++ List.replicate (32 - cur.length) 0)
      if cur.length ≤ 32 then (blk.take cur.length, iv1, blk.drop cur.length)
      else
        let q := ctrGenB G theta fuel iv1 (cur.drop 32)
        (blk ++ q.1, q.2.1, q.2.2)

/-- Fresh-block generation for a whole request: output octets, evolved
synchronization value, and new reserve. -/
def ctrGen (G : List Nat → Nat → List Nat → List Nat) (theta : List Nat) (iv : Nat)
    (rest : List Nat) : List Nat × Nat × List Nat :=
  ctrGenB G theta rest.length iv rest

/-- Modelled from the spec: brngCTRStart stores the key and the 32-octet
synchronization value (as its big-endian numeric value) with an empty block
reserve. -/
def brngCTRStart (theta iv : List Nat) : BrngCTRState :=
  ⟨theta, baseToNat 256 iv, []⟩

/-- Modelled from the spec: brngCTRStepR fills the buffer with generator
output.  Octets still buffered from a previously generated block are returned
first (their positions of the caller's buffer are skipped for the auxiliary
word X); the remaining octets are produced by fresh blocks.  Takes the
initial buffer contents, returns the output octets and the new state. -/
def brngCTRStepR (G : List Nat → Nat → List Nat → List Nat) (buf : List Nat)
    (s : BrngCTRState) : List Nat × BrngCTRState :=
  if buf.length ≤ s.reserved.length then
    (s.reserved.take buf.length, ⟨s.theta, s.iv, s.reserved.drop buf.length⟩)
  else
    (s.reserved ++ (ctrGen G s.theta s.iv (buf.drop s.reserved.length)).1,
     ⟨s.theta, (ctrGen G s.theta s.iv (buf.drop s.reserved.length)).2.1,
      (ctrGen G s.theta s.iv (buf.drop s.reserved.length)).2.2⟩)

/-- Modelled from the spec: brngCTRStepG extracts the current synchronization
value (as 32 big-endian octets); the state is not perturbed. -/
def brngCTRStepG (s : BrngCTRState) : List Nat × BrngCTRState :=
  (natToBase 256 32 s.iv, s)

/-- Modelled from the spec: the high-level brngCTRRand validates that the
`buf` and `iv` buffers do not overlap (buffer overlap is a memory-layout
fact, represented by the explicit flag), then runs Start + StepR and writes
the evolved synchronization value back.  Returns the error code, the output
octets and the updated 32-octet synchronization value. -/
def brngCTRRand (G : List Nat → Nat → List Nat → List Nat) (buf theta iv : List Nat)
    (overlap : Bool) : Err × List Nat × List Nat :=
  if overlap then (Err.ERR_BAD_INPUT, buf, iv)
  else
    (Err.ERR_OK, (brngCTRStepR G buf (brngCTRStart theta iv)).1,
      (brngCTRStepG (brngCTRStepR G buf (brngCTRStart theta iv)).2).1)

/-- Run a sequence of brngCTRStepR calls (given by their initial buffer
contents), returning the final state. -/
def ctrRunBufs (G : List Nat → Nat → List Nat → List Nat) (s : BrngCTRState)
    (bufs : List (List Nat)) : BrngCTRState :=
  bufs.foldl (fun st b => (brngCTRStepR G b st).2) s

/-- A call in a CTR generator usage trace: a generation request with the
given initial buffer contents, or a synchronization-value extraction. -/
inductive CTROp where
  | stepR (buf : List Nat)
  | stepG

/-- Run a trace of CTR calls, collecting the octets each call returns
(generator output for stepR, the extracted value for stepG) and the final
state. -/
def ctrRunOps (G : List Nat → Nat → List Nat → List Nat) :
    BrngCTRState → List CTROp → List (List Nat) × BrngCTRState
  | s, [] => ([], s)
  | s, CTROp.stepR buf :: ops =>
      ((brngCTRStepR G buf s).1 :: (ctrRunOps G (brngCTRStepR G buf s).2 ops).1,
       (ctrRunOps G (brngCTRStepR G buf s).2 ops).2)
  | s, CTROp.stepG :: ops =>
      ((brngCTRStepG s).1 :: (ctrRunOps G (brngCTRStepG s).2 ops).1,
       (ctrRunOps G (brngCTRStepG s).2 ops).2)

/-- Invariant of a reachable CTR state: after a total of `T` generated
octets, the synchronization value has advanced by one per generated block and
the reserve holds the unconsumed part of the last block. -/
def ctrInv (theta : List Nat) (v0 T : Nat) (s : BrngCTRState) : Prop :=
  s.theta = theta ∧ s.iv = (v0 + blocksFor T) % 2 ^ 256 ∧
    s.reserved.length = 32 * blocksFor T - T

/-- State of the HMAC-mode generator: key, referenced synchronization buffer,
current derivation value and the unconsumed octets of the last block. -/
structure BrngHMACState where
  theta : List Nat
  iv : List Nat
  r : List Nat
  reserved : List Nat
deriving DecidableEq

/-- Modelled from the spec: brng.c is not among the analysed sources; the
MAC-derivation block loop of brngHMACStepR.  Per fresh block the output is
mac(theta, r ++ iv) and the derivation value advances to mac(theta, r); no
data from the caller's buffer is consumed.  The first argument is structural
recursion fuel (the requested octet count suffices). -/
def hmacGenB (mac : Mac) (theta iv : List Nat) :
    Nat → List Nat → Nat → List Nat × List Nat × List Nat
  | 0, r, _ => ([], r, [])
  | _ + 1, r, 0 => ([], r, [])
  | fuel + 1, r, n + 1 =>
      let blk := mac theta (r ++ iv)
      if n + 1 ≤ 32 then (blk.take (n + 1), mac theta r, blk.drop (n + 1))
      else
        let q := hmacGenB mac theta iv fuel (mac theta r) (n + 1 - 32)
        (blk ++ q.1, q.2.1, q.2.2)

/-- Modelled from the spec: brngHMACStart stores the key, references the
synchronization buffer, and initializes the derivation value from them. -/
def brngHMACStart (mac : Mac) (theta iv : List Nat) : BrngHMACState :=
  ⟨theta, iv, mac theta iv, []⟩

/-- Modelled from the spec: brngHMACStepR fills the buffer with generator
output, draining the block reserve first; unlike CTR mode the prior contents
of the caller's buffer are not consumed (`buf` is out-only), so only the
requested count `buf.length` enters the computation. -/
def brngHMACStepR (mac : Mac) (buf : List Nat) (s : BrngHMACState) :
    List Nat × BrngHMACState :=
  if buf.length ≤ s.reserved.length then
    (s.reserved.take buf.length, ⟨s.theta, s.iv, s.r, s.reserved.drop buf.length⟩)
  else
    (s.reserved ++
       (hmacGenB mac s.theta s.iv (buf.length - s.reserved.length) s.r
         (buf.length - s.reserved.length)).1,
     ⟨s.theta, s.iv,
      (hmacGenB mac s.theta s.iv (buf.length - s.reserved.length) s.r
        (buf.length - s.reserved.length)).2.1,
      (hmacGenB mac s.theta s.iv (buf.length - s.reserved.length) s.r
        (buf.length - s.reserved.length)).2.2⟩)

/-- Modelled from the spec: the high-level brngHMACRand validates that `buf`
and `iv` do not overlap (explicit flag, as for brngCTRRand) and otherwise
delegates to Start + StepR. -/
def brngHMACRand (mac : Mac) (buf theta iv : List Nat) (overlap : Bool) :
    Err × List Nat :=
  if overlap then (Err.ERR_BAD_INPUT, buf)
  else (Err.ERR_OK, (brngHMACStepR mac buf (brngHMACStart mac theta iv)).1)

theorem length_natToBase (b l n : Nat) : (natToBase b l n).length = l := by
  induction l generalizing n with
  | zero => rfl
  | succ l ih => simp [natToBase, ih]

theorem baseToNat_append_single (b : Nat) (xs : List Nat) (x : Nat) :
    baseToNat b (xs ++ [x]) = baseToNat b xs * b + x := by
  simp [baseToNat, List.foldl_append]

theorem mod_pow_succ_digit (b l n : Nat) (hb : 0 < b) :
    n % b ^ (l + 1) = b * (n / b % b ^ l) + n % b := by
  have hpow : b ^ (l + 1) = b * b ^ l := by ring
  have h1 : n % (b * b ^ l) / b = n / b % b ^ l := Nat.mod_mul_right_div_self n b (b ^ l)
  have h2 : n % (b * b ^ l) % b = n % b :=
    Nat.mod_mod_of_dvd n ⟨b ^ l, rfl⟩
  have h3 : b * (n % (b * b ^ l) / b) + n % (b * b ^ l) % b = n % (b * b ^ l) :=
    Nat.div_add_mod _ b
  rw [hpow, ← h3, h1, h2]

theorem baseToNat_natToBase (b l n : Nat) (hb : 0 < b) :
    baseToNat b (natToBase b l n) = n % b ^ l := by
  induction l generalizing n with
  | zero => simp [natToBase, baseToNat, Nat.mod_one]
  | succ l ih =>
    rw [natToBase, baseToNat_append_single, ih, mod_pow_succ_digit b l n hb,
      Nat.mul_comm]

theorem baseToNat_lt (b : Nat) (xs : List Nat) (hb : 0 < b) (h : ∀ x ∈ xs, x < b) :
    baseToNat b xs < b ^ xs.length := by
  induction xs using List.reverseRecOn with
  | nil => simp [baseToNat]
  | append_singleton xs x ih =>
    have hx : x < b := h x (by simp)
    have hxs : baseToNat b xs < b ^ xs.length := ih fun y hy => h y (by simp [hy])
    rw [baseToNat_append_single, List.length_append, List.length_singleton, pow_succ]
    calc baseToNat b xs * b + x < baseToNat b xs * b + b := by omega
    _ = (baseToNat b xs + 1) * b := by ring
    _ ≤ b ^ xs.length * b := Nat.mul_le_mul_right b hxs

theorem natToBase_baseToNat (b : Nat) (xs : List Nat) (hb : 0 < b) (h : ∀ x ∈ xs, x < b) :
    natToBase b xs.length (baseToNat b xs) = xs := by
  induction xs using List.reverseRecOn with
  | nil => rfl
  | append_singleton xs x ih =>
    have hx : x < b := h x (by simp)
    have hxs := ih fun y hy => h y (by simp [hy])
    have hdiv : (baseToNat b xs * b + x) / b = baseToNat b xs := by
      rw [Nat.add_comm, Nat.add_mul_div_right _ _ hb, Nat.div_eq_of_lt hx, Nat.zero_add]
    have hmod : (baseToNat b xs * b + x) % b = x := by
      rw [Nat.add_comm, Nat.add_mul_mod_self_right, Nat.mod_eq_of_lt hx]
    rw [baseToNat_append_single, List.length_append, List.length_singleton]
    show natToBase b (xs.length + 1) (baseToNat b xs * b + x) = xs ++ [x]
    rw [natToBase, hdiv, hmod, hxs]

theorem length_hotpPwd (mac : Mac) (state : List Nat) (d : Nat) (ctr : List Nat) :
    (hotpPwd mac state d ctr).length = d := by
  simp [hotpPwd, length_natToBase]

/-- C1: HOTP round-trip.  For every key, digit count d in [6,8], and 8-octet
counter c, after botpHOTPStart, generating a password with botpHOTPStepG at
counter c and verifying it with botpHOTPStepV starting from c with
attempts = 0 succeeds, and the resulting counter is the one produced by the
generation step, whose value is (c + 1) mod 2^64. -/
theorem hotp_round_trip (mac : Mac) (key ctr : List Nat) (d : Nat)
    (hd1 : 6 ≤ d) (hd2 : d ≤ 8) (hlen : ctr.length = 8) (hoct : ∀ x ∈ ctr, x < 256) :
    botpHOTPStepV mac (botpHOTPStepG mac d ctr (botpHOTPStart key)).1 ctr 0
        (botpHOTPStart key)
      = (true, (botpHOTPStepG mac d ctr (botpHOTPStart key)).2) ∧
    baseToNat 256 (botpHOTPStepG mac d ctr (botpHOTPStart key)).2
      = (baseToNat 256 ctr + 1) % 2 ^ 64 := by
  constructor
  · simp [botpHOTPStepV, hotpSearch, botpHOTPStepG, length_hotpPwd]
  · have h256 : (256 : Nat) ^ 8 = 2 ^ 64 := by norm_num
    simp only [botpHOTPStepG, ctrIncr]
    rw [baseToNat_natToBase 256 8 _ (by norm_num), h256, Nat.mod_mod_of_dvd _ dvd_rfl]

/-- C1 witness: the round-trip theorem applied at a concrete MAC, key, digit
count and counter. -/
theorem hotp_round_trip_witness :
    (6 ≤ 6 ∧ 6 ≤ 8 ∧ (List.replicate 8 (0 : Nat)).length = 8 ∧
      ∀ x ∈ List.replicate 8 (0 : Nat), x < 256) ∧
    (botpHOTPStepV (fun _ _ => List.replicate 32 0)
        (botpHOTPStepG (fun _ _ => List.replicate 32 0) 6 (List.replicate 8 0)
          (botpHOTPStart [])).1 (List.replicate 8 0) 0 (botpHOTPStart [])
      = (true, (botpHOTPStepG (fun _ _ => List.replicate 32 0) 6 (List.replicate 8 0)
          (botpHOTPStart [])).2) ∧
    baseToNat 256 (botpHOTPStepG (fun _ _ => List.replicate 32 0) 6 (List.replicate 8 0)
        (botpHOTPStart [])).2
      = (baseToNat 256 (List.replicate 8 0) + 1) % 2 ^ 64) :=
  ⟨⟨by decide, by decide, by decide, by decide⟩,
    hotp_round_trip (fun _ _ => List.replicate 32 0) [] (List.replicate 8 0) 6
      (by decide) (by decide) (by decide) (by decide)⟩

/-- C2: HOTP verification is transactionally clean on failure.  For an
all-decimal password of length in [6,8] and attempts < 10, if botpHOTPStepV
finds no match then it returns the counter unchanged, and likewise
botpHOTPVerify reports a non-ERR_OK result and leaves the counter at its
original input value. -/
theorem hotp_verify_fail_preserves_ctr (mac : Mac) (key otp ctr : List Nat) (a : Nat)
    (hdec : ∀ x ∈ otp, x < 10) (h6 : 6 ≤ otp.length) (h8 : otp.length ≤ 8)
    (ha : a < 10)
    (hfail : (botpHOTPStepV mac otp ctr a (botpHOTPStart key)).1 = false) :
    (botpHOTPStepV mac otp ctr a (botpHOTPStart key)).2 = ctr ∧
    (botpHOTPVerify mac otp key ctr a).1 ≠ Err.ERR_OK ∧
    (botpHOTPVerify mac otp key ctr a).2 = ctr := by
  have hv : botpHOTPStepV mac otp ctr a (botpHOTPStart key) = (false, ctr) := by
    unfold botpHOTPStepV at hfail ⊢
    cases h : hotpSearch mac (botpHOTPStart key) otp ctr a with
    | some c => rw [h] at hfail; simp at hfail
    | none => rfl
  refine ⟨by rw [hv], ?_, ?_⟩ <;>
    simp [botpHOTPVerify, hdec, h6, h8, ha, hv]

/-- C2 witness: a concrete failing verification (constant MAC, password that
never matches) to which the theorem applies. -/
theorem hotp_verify_fail_preserves_ctr_witness :
    ((∀ x ∈ [1, 1, 1, 1, 1, 1], x < 10) ∧ 6 ≤ ([1, 1, 1, 1, 1, 1] : List Nat).length ∧
      ([1, 1, 1, 1, 1, 1] : List Nat).length ≤ 8 ∧ 0 < 10 ∧
      (botpHOTPStepV (fun _ _ => List.replicate 32 0) [1, 1, 1, 1, 1, 1]
        (List.replicate 8 0) 0 (botpHOTPStart [])).1 = false) ∧
    ((botpHOTPStepV (fun _ _ => List.replicate 32 0) [1, 1, 1, 1, 1, 1]
        (List.replicate 8 0) 0 (botpHOTPStart [])).2 = List.replicate 8 0 ∧
     (botpHOTPVerify (fun _ _ => List.replicate 32 0) [1, 1, 1, 1, 1, 1] []
        (List.replicate 8 0) 0).1 ≠ Err.ERR_OK ∧
     (botpHOTPVerify (fun _ _ => List.replicate 32 0) [1, 1, 1, 1, 1, 1] []
        (List.replicate 8 0) 0).2 = List.replicate 8 0) :=
  ⟨⟨by decide, by decide, by decide, by decide, by decide⟩,
    hotp_verify_fail_preserves_ctr (fun _ _ => List.replicate 32 0) []
      [1, 1, 1, 1, 1, 1] (List.replicate 8 0) 0
      (by decide) (by decide) (by decide) (by decide) (by decide)⟩

/-- C9: HOTP counter wraparound.  The counter update performed by
botpHOTPStepG (and by each probe of the verification search, which uses the
same increment) is arithmetic modulo 2^64 on the 8-octet big-endian counter;
in particular all-0xFF increments to all-0x00. -/
theorem hotp_ctr_wraparound (mac : Mac) (key : List Nat) (d : Nat) :
    (∀ ctr : List Nat, baseToNat 256 (ctrIncr ctr) = (baseToNat 256 ctr + 1) % 2 ^ 64) ∧
    (∀ ctr : List Nat, (botpHOTPStepG mac d ctr key).2 = ctrIncr ctr) ∧
    ctrIncr (List.replicate 8 255) = List.replicate 8 0 := by
  refine ⟨fun ctr => ?_, fun ctr => rfl, by decide⟩
  have h256 : (256 : Nat) ^ 8 = 2 ^ 64 := by norm_num
  rw [ctrIncr, baseToNat_natToBase 256 8 _ (by norm_num), h256,
    Nat.mod_mod_of_dvd _ dvd_rfl]

theorem iterate_ctrIncr_val (c : List Nat) (k : Nat) (hk : 0 < k) :
    ctrIncr^[k] c = natToBase 256 8 ((baseToNat 256 c + k) % 2 ^ 64) := by
  induction k with
  | zero => omega
  | succ k ih =>
    rcases Nat.eq_zero_or_pos k with hk0 | hk0
    · subst hk0
      simp [ctrIncr]
    · rw [Function.iterate_succ_apply', ih hk0, ctrIncr,
        baseToNat_natToBase 256 8 _ (by norm_num)]
      congr 1
      have h256 : (256 : Nat) ^ 8 = 2 ^ 64 := by norm_num
      rw [h256]
      omega

theorem hotpSearch_pos (mac : Mac) (key otp : List Nat) :
    ∀ (a k : Nat) (c : List Nat), k ≤ a →
      (∀ j, j < k → hotpPwd mac key otp.length (ctrIncr^[j] c) ≠ otp) →
      hotpPwd mac key otp.length (ctrIncr^[k] c) = otp →
      hotpSearch mac key otp c a = some (ctrIncr (ctrIncr^[k] c)) := by
  intro a
  induction a with
  | zero =>
    intro k c hka _ hmatch
    interval_cases k
    simp only [Function.iterate_zero, id_eq] at hmatch
    simp [hotpSearch, hmatch]
  | succ a ih =>
    intro k c hka hmiss hmatch
    rcases Nat.eq_zero_or_pos k with hk0 | hk0
    · subst hk0
      simp only [Function.iterate_zero, id_eq] at hmatch
      simp [hotpSearch, hmatch]
    · obtain ⟨k', rfl⟩ : ∃ k', k = k' + 1 := ⟨k - 1, by omega⟩
      have h0 : hotpPwd mac key otp.length c ≠ otp := by
        simpa using hmiss 0 (by omega)
      rw [hotpSearch, if_neg h0]
      have := ih k' (ctrIncr c) (by omega)
        (fun j hj => by
          rw [← Function.iterate_succ_apply]
          exact hmiss (j + 1) (by omega))
        (by rw [← Function.iterate_succ_apply]; exact hmatch)
      rw [this, ← Function.iterate_succ_apply]

theorem hotpSearch_neg (mac : Mac) (key otp : List Nat) :
    ∀ (a : Nat) (c : List Nat),
      (∀ j, j ≤ a → hotpPwd mac key otp.length (ctrIncr^[j] c) ≠ otp) →
      hotpSearch mac key otp c a = none := by
  intro a
  induction a with
  | zero =>
    intro c hmiss
    have := hmiss 0 (by omega)
    simp only [Function.iterate_zero, id_eq] at this
    simp [hotpSearch, this]
  | succ a ih =>
    intro c hmiss
    have h0 : hotpPwd mac key otp.length c ≠ otp := by
      simpa using hmiss 0 (by omega)
    rw [hotpSearch, if_neg h0]
    exact ih (ctrIncr c)
      (fun j hj => by
        rw [← Function.iterate_succ_apply]
        exact hmiss (j + 1) (by omega))

/-- C3 counterexample: the claim as stated fails on the code model.  With the
constant MAC (the MAC is an external capability; nothing in the analysed
sources prevents colliding candidate passwords inside the search window), a
password generated at counter c+1 is accepted by botpHOTPStepV already with
attempts = 0, i.e. the claimed "fails and leaves the counter unchanged"
branch is violated at k = 1, c = 0. -/
theorem hotp_window_search_cex :
    (botpHOTPStepV (fun _ _ => List.replicate 32 0)
        (botpHOTPStepG (fun _ _ => List.replicate 32 0) 6
          (ctrIncr^[1] (List.replicate 8 0)) (botpHOTPStart [])).1
        (List.replicate 8 0) 0 (botpHOTPStart [])).1 = true := by
  decide

/-- C3 (amended): HOTP window search, under the hypothesis that none of the
candidate passwords at the k probed counters c, c+1, ..., c+k-1 collides with
the password generated at counter c+k.  Then verification from c with
attempts = k succeeds and leaves the counter at (c+k+1) mod 2^64, while
verification with attempts = k-1 fails and leaves the counter unchanged. -/
theorem hotp_window_search (mac : Mac) (key c : List Nat) (d k : Nat)
    (hd1 : 6 ≤ d) (hd2 : d ≤ 8) (hk : 0 < k) (hk10 : k < 10)
    (hdist : ∀ j, j < k →
      hotpPwd mac (botpHOTPStart key) d (ctrIncr^[j] c) ≠
        (botpHOTPStepG mac d (ctrIncr^[k] c) (botpHOTPStart key)).1) :
    botpHOTPStepV mac (botpHOTPStepG mac d (ctrIncr^[k] c) (botpHOTPStart key)).1 c k
        (botpHOTPStart key)
      = (true, ctrIncr^[k + 1] c) ∧
    baseToNat 256 (ctrIncr^[k + 1] c) = (baseToNat 256 c + k + 1) % 2 ^ 64 ∧
    botpHOTPStepV mac (botpHOTPStepG mac d (ctrIncr^[k] c) (botpHOTPStart key)).1 c (k - 1)
        (botpHOTPStart key)
      = (false, c) := by
  have hlen : ((botpHOTPStepG mac d (ctrIncr^[k] c) (botpHOTPStart key)).1).length = d := by
    simp [botpHOTPStepG, length_hotpPwd]
  refine ⟨?_, ?_, ?_⟩
  · have hsearch := hotpSearch_pos mac (botpHOTPStart key)
      (botpHOTPStepG mac d (ctrIncr^[k] c) (botpHOTPStart key)).1 k k c (le_refl k)
      (fun j hj => by rw [hlen]; exact hdist j hj)
      (by rw [hlen]; simp [botpHOTPStepG])
    have hit : ctrIncr (ctrIncr^[k] c) = ctrIncr^[k + 1] c :=
      (Function.iterate_succ_apply' ctrIncr k c).symm
    rw [botpHOTPStepV, hsearch, hit]
  · rw [iterate_ctrIncr_val c (k + 1) (by omega),
      baseToNat_natToBase 256 8 _ (by norm_num)]
    have h256 : (256 : Nat) ^ 8 = 2 ^ 64 := by norm_num
    rw [h256, Nat.mod_mod_of_dvd _ dvd_rfl]
    ring_nf
  · have hsearch := hotpSearch_neg mac (botpHOTPStart key)
      (botpHOTPStepG mac d (ctrIncr^[k] c) (botpHOTPStart key)).1 (k - 1) c
      (fun j hj => by rw [hlen]; exact hdist j (by omega))
    rw [botpHOTPStepV, hsearch]

/-- C3 witness: the amended theorem applied at a MAC that embeds the counter
in the tag, giving distinct candidate passwords at counters 0 and 1. -/
theorem hotp_window_search_witness :
    ((0 : Nat) < 1 ∧ (1 : Nat) < 10 ∧
      (∀ j, j < 1 →
        hotpPwd (fun _ ctr => ctr.reverse ++ List.replicate 24 0) (botpHOTPStart []) 6
            (ctrIncr^[j] (List.replicate 8 0)) ≠
          (botpHOTPStepG (fun _ ctr => ctr.reverse ++ List.replicate 24 0) 6
            (ctrIncr^[1] (List.replicate 8 0)) (botpHOTPStart [])).1)) ∧
    (botpHOTPStepV (fun _ ctr => ctr.reverse ++ List.replicate 24 0)
        (botpHOTPStepG (fun _ ctr => ctr.reverse ++ List.replicate 24 0) 6
          (ctrIncr^[1] (List.replicate 8 0)) (botpHOTPStart [])).1
        (List.replicate 8 0) 1 (botpHOTPStart [])
      = (true, ctrIncr^[1 + 1] (List.replicate 8 0)) ∧
    baseToNat 256 (ctrIncr^[1 + 1] (List.replicate 8 0))
      = (baseToNat 256 (List.replicate 8 0) + 1 + 1) % 2 ^ 64 ∧
    botpHOTPStepV (fun _ ctr => ctr.reverse ++ List.replicate 24 0)
        (botpHOTPStepG (fun _ ctr => ctr.reverse ++ List.replicate 24 0) 6
          (ctrIncr^[1] (List.replicate 8 0)) (botpHOTPStart [])).1
        (List.replicate 8 0) (1 - 1) (botpHOTPStart [])
      = (false, List.replicate 8 0)) :=
  ⟨⟨by decide, by decide, by
      intro j hj
      have hj0 : j = 0 := by omega
      subst hj0
      decide⟩,
    hotp_window_search (fun _ ctr => ctr.reverse ++ List.replicate 24 0) []
      (List.replicate 8 0) 6 1 (by decide) (by decide) (by decide) (by decide)
      (by
        intro j hj
        have hj0 : j = 0 := by omega
        subst hj0
        decide)⟩

theorem mem_totpOffsets (bwd fwd : Nat) (i : Int) :
    i ∈ totpOffsets bwd fwd ↔ -(bwd : Int) ≤ i ∧ i ≤ (fwd : Int) := by
  rw [totpOffsets]
  constructor
  · intro hi
    rcases List.mem_cons.1 hi with h0 | hmem
    · subst h0
      constructor <;> omega
    · obtain ⟨m, hm, hchunk⟩ := List.mem_flatMap.1 hmem
      rw [List.mem_range] at hm
      rcases List.mem_append.1 hchunk with hneg | hpos
      · by_cases hb : m < bwd
        · rw [if_pos hb] at hneg
          have : i = -((m : Int) + 1) := by simpa using hneg
          omega
        · rw [if_neg hb] at hneg
          simp at hneg
      · by_cases hf : m < fwd
        · rw [if_pos hf] at hpos
          have : i = (m : Int) + 1 := by simpa using hpos
          omega
        · rw [if_neg hf] at hpos
          simp at hpos
  · rintro ⟨h1, h2⟩
    rcases lt_trichotomy i 0 with hlt | h0 | hgt
    · refine List.mem_cons.2 (Or.inr (List.mem_flatMap.2 ⟨(-i).toNat - 1, ?_, ?_⟩))
      · rw [List.mem_range]
        omega
      · refine List.mem_append.2 (Or.inl ?_)
        rw [if_pos (by omega : (-i).toNat - 1 < bwd)]
        simp only [List.mem_singleton]
        omega
    · subst h0
      exact List.mem_cons_self _ _
    · refine List.mem_cons.2 (Or.inr (List.mem_flatMap.2 ⟨i.toNat - 1, ?_, ?_⟩))
      · rw [List.mem_range]
        omega
      · refine List.mem_append.2 (Or.inr ?_)
        rw [if_pos (by omega : i.toNat - 1 < fwd)]
        simp only [List.mem_singleton]
        omega

theorem probeRank_chunk (bwd fwd m : Nat) (x : Int)
    (hx : x ∈ (if m < bwd then [-(m + 1 : Int)] else []) ++
      (if m < fwd then [(m + 1 : Int)] else [])) :
    probeRank x = 2 * m + 2 ∨ probeRank x = 2 * m + 3 := by
  rcases List.mem_append.1 hx with h | h
  · by_cases hb : m < bwd
    · rw [if_pos hb] at h
      have hx' : x = -((m : Int) + 1) := by simpa using h
      subst hx'
      left
      rw [probeRank, if_neg (by omega)]
      omega
    · rw [if_neg hb] at h
      simp at h
  · by_cases hf : m < fwd
    · rw [if_pos hf] at h
      have hx' : x = (m : Int) + 1 := by simpa using h
      subst hx'
      right
      rw [probeRank, if_pos (by omega)]
      omega
    · rw [if_neg hf] at h
      simp at h

theorem pairwise_rank_totpOffsets (bwd fwd : Nat) :
    (totpOffsets bwd fwd).Pairwise fun a b => probeRank a < probeRank b := by
  rw [totpOffsets]
  have key : ∀ M : Nat,
      ((List.range M).flatMap fun m =>
        (if m < bwd then [-(m + 1 : Int)] else []) ++
          (if m < fwd then [(m + 1 : Int)] else [])).Pairwise
        (fun a b => probeRank a < probeRank b) := by
    intro M
    induction M with
    | zero => simp
    | succ M ih =>
      rw [List.range_succ, List.flatMap_append, List.pairwise_append]
      refine ⟨ih, ?_, ?_⟩
      · simp only [List.flatMap_cons, List.flatMap_nil, List.append_nil]
        by_cases hb : M < bwd <;> by_cases hf : M < fwd <;>
          simp only [if_pos, if_neg, hb, hf, if_true, if_false, List.nil_append,
            List.append_nil, List.singleton_append]
        · refine List.Pairwise.cons ?_ (List.pairwise_singleton _ _)
          intro b hbmem
          have hb' : b = (M : Int) + 1 := by simpa using hbmem
          subst hb'
          rw [probeRank, probeRank, if_neg (by omega), if_pos (by omega)]
          omega
        · exact List.pairwise_singleton _ _
        · exact List.pairwise_singleton _ _
        · exact List.Pairwise.nil
      · intro a ha b hbmem
        obtain ⟨m, hm, hchunk⟩ := List.mem_flatMap.1 ha
        rw [List.mem_range] at hm
        have h1 := probeRank_chunk bwd fwd m a hchunk
        have h2 := probeRank_chunk bwd fwd M b
          (by simpa using hbmem)
        omega
  refine List.Pairwise.cons ?_ (key (max bwd fwd))
  intro b hbmem
  obtain ⟨m, hm, hchunk⟩ := List.mem_flatMap.1 hbmem
  have := probeRank_chunk bwd fwd m b hchunk
  have h0 : probeRank 0 = 0 := by rw [probeRank, if_neg (by omega)]; simp
  omega

/-- C4: TOTP probe order.  botpTOTPStepV probes the time stamps t + i (each
reduced modulo 2^64 by totpCtr) for offsets i in the alternating outward
sequence 0, -1, +1, -2, +2, ...; the probe sequence is strictly ordered by
the outward rank (exact time stamp first, backward before forward at equal
distance), and verification succeeds if and only if some offset in the
interval [-attempts_bwd, attempts_fwd] yields a matching password. -/
theorem totp_probe_order (mac : Mac) (state otp : List Nat) (t bwd fwd : Nat) :
    (botpTOTPStepV mac otp t bwd fwd state = true ↔
      ∃ i : Int, -(bwd : Int) ≤ i ∧ i ≤ (fwd : Int) ∧
        hotpPwd mac state otp.length (totpCtr ((t : Int) + i)) = otp) ∧
    (totpOffsets bwd fwd).Pairwise fun a b => probeRank a < probeRank b := by
  refine ⟨?_, pairwise_rank_totpOffsets bwd fwd⟩
  rw [botpTOTPStepV, List.any_eq_true]
  constructor
  · rintro ⟨i, hi, hp⟩
    rw [decide_eq_true_eq] at hp
    have hmem := (mem_totpOffsets bwd fwd i).1 hi
    exact ⟨i, hmem.1, hmem.2, hp⟩
  · rintro ⟨i, h1, h2, hp⟩
    exact ⟨i, (mem_totpOffsets bwd fwd i).2 ⟨h1, h2⟩, by rw [decide_eq_true_eq]; exact hp⟩

/-- C6: high-level CTR Rand contract.  brngCTRRand behaves as brngCTRStart
followed by brngCTRStepR and returns the evolved synchronization value as
extracted by brngCTRStepG; it reports ERR_BAD_INPUT exactly when the buf and
iv buffers overlap and ERR_OK otherwise. -/
theorem brng_ctr_rand_contract (G : List Nat → Nat → List Nat → List Nat)
    (buf theta iv : List Nat) (overlap : Bool) :
    brngCTRRand G buf theta iv true = (Err.ERR_BAD_INPUT, buf, iv) ∧
    brngCTRRand G buf theta iv false
      = (Err.ERR_OK, (brngCTRStepR G buf (brngCTRStart theta iv)).1,
          (brngCTRStepG (brngCTRStepR G buf (brngCTRStart theta iv)).2).1) ∧
    ((brngCTRRand G buf theta iv overlap).1 = Err.ERR_BAD_INPUT ↔ overlap = true) ∧
    ((brngCTRRand G buf theta iv overlap).1 = Err.ERR_OK ↔ overlap = false) := by
  refine ⟨rfl, rfl, ?_, ?_⟩ <;> cases overlap <;> simp [brngCTRRand]

/-- C10: brngCTRStepG is a non-perturbing read.  For every CTR state reached
by brngCTRStart and a sequence of brngCTRStepR calls, inserting a
brngCTRStepG call in front of any remaining trace returns the extracted
synchronization value and leaves the outputs of all subsequent calls (both
stepR outputs and stepG extractions) and the final state exactly as in the
trace without the inserted call. -/
theorem brng_ctr_stepg_non_perturbing (G : List Nat → Nat → List Nat → List Nat)
    (theta iv0 : List Nat) (bufs0 : List (List Nat)) (ops : List CTROp) :
    ctrRunOps G (ctrRunBufs G (brngCTRStart theta iv0) bufs0) (CTROp.stepG :: ops)
      = ((brngCTRStepG (ctrRunBufs G (brngCTRStart theta iv0) bufs0)).1 ::
          (ctrRunOps G (ctrRunBufs G (brngCTRStart theta iv0) bufs0) ops).1,
         (ctrRunOps G (ctrRunBufs G (brngCTRStart theta iv0) bufs0) ops).2) :=
  rfl

theorem ctrGenB_single (G : List Nat → Nat → List Nat → List Nat) (theta : List Nat)
    (fuel iv : Nat) (rest : List Nat) (hne : rest ≠ []) (hle : rest.length ≤ 32)
    (hfuel : 1 ≤ fuel) :
    ctrGenB G theta fuel iv rest =
      ((G theta ((iv + 1) % 2 ^ 256)
          (rest.take 32 ++ List.replicate (32 - rest.length) 0)).take rest.length,
       (iv + 1) % 2 ^ 256,
       (G theta ((iv + 1) % 2 ^ 256)
          (rest.take 32 ++ List.replicate (32 - rest.length) 0)).drop rest.length) := by
  obtain ⟨f, rfl⟩ : ∃ f, fuel = f + 1 := ⟨fuel - 1, by omega⟩
  cases rest with
  | nil => exact absurd rfl hne
  | cons x rest' =>
    simp [ctrGenB, hle]
    intro h
    rw [List.length_cons] at hle
    exact absurd h (by omega)

/-- C5 counterexample: the claim as stated fails on the code model.  The
split request folds a shorter auxiliary word X into the freshly generated
block (the second call is served entirely from the block reserve, whose
positions are skipped for X), so when the initial buffer contents are nonzero
beyond the first 10 octets — here a single 1 in the last octet, with the
identity block transform — the two scenarios write different octets. -/
theorem brng_ctr_buffering_cex :
    ¬ ((brngCTRStepR (fun _ _ X => X) ((List.replicate 31 0 ++ [1]).take 10)
          (brngCTRStart (List.replicate 32 0) (List.replicate 32 0))).1 ++
        (brngCTRStepR (fun _ _ X => X) ((List.replicate 31 0 ++ [1]).drop 10)
          (brngCTRStepR (fun _ _ X => X) ((List.replicate 31 0 ++ [1]).take 10)
            (brngCTRStart (List.replicate 32 0) (List.replicate 32 0))).2).1
        = (brngCTRStepR (fun _ _ X => X) (List.replicate 31 0 ++ [1])
            (brngCTRStart (List.replicate 32 0) (List.replicate 32 0))).1) := by
  decide

/-- C5 (amended): CTR block buffering is request-split invariant provided the
initial contents of the buffer beyond the first 10 octets are zero (so that
the auxiliary word X folded into the single freshly generated block is the
same in both scenarios): requesting 10 then 22 octets writes the same 32
octets as one request of 32 octets, for identical (theta, iv). -/
theorem brng_ctr_buffering (G : List Nat → Nat → List Nat → List Nat)
    (theta iv0 b : List Nat)
    (hG : ∀ t i X, (G t i X).length = 32)
    (hlen : b.length = 32) (htail : b.drop 10 = List.replicate 22 0) :
    (brngCTRStepR G (b.take 10) (brngCTRStart theta iv0)).1 ++
      (brngCTRStepR G (b.drop 10)
        (brngCTRStepR G (b.take 10) (brngCTRStart theta iv0)).2).1
      = (brngCTRStepR G b (brngCTRStart theta iv0)).1 := by
  have h10 : (b.take 10).length = 10 := by
    rw [List.length_take, hlen]
    omega
  have h22 : (b.drop 10).length = 22 := by
    rw [List.length_drop, hlen]
  have hX : b.take 10 ++ List.replicate 22 0 = b := by
    conv_rhs => rw [← List.take_append_drop 10 b, htail]
  have hXa : (b.take 10).take 32 ++ List.replicate (32 - (b.take 10).length) 0 = b := by
    rw [List.take_take, h10]
    simpa using hX
  have hc1 : brngCTRStepR G (b.take 10) (brngCTRStart theta iv0)
      = ((G theta ((baseToNat 256 iv0 + 1) % 2 ^ 256) b).take 10,
         ⟨theta, (baseToNat 256 iv0 + 1) % 2 ^ 256,
          (G theta ((baseToNat 256 iv0 + 1) % 2 ^ 256) b).drop 10⟩) := by
    rw [brngCTRStepR]
    rw [if_neg (by simp [brngCTRStart, h10])]
    simp only [brngCTRStart, List.length_nil, List.drop_zero, List.nil_append]
    rw [ctrGen, ctrGenB_single G theta _ _ _
      (List.length_pos.mp (by rw [h10]; omega)) (by rw [h10]; omega) (by rw [h10]; omega),
      hXa, h10]
  have hres : ((G theta ((baseToNat 256 iv0 + 1) % 2 ^ 256) b).drop 10).length = 22 := by
    rw [List.length_drop, hG]
  have hc2 : (brngCTRStepR G (b.drop 10)
        ((⟨theta, (baseToNat 256 iv0 + 1) % 2 ^ 256,
          (G theta ((baseToNat 256 iv0 + 1) % 2 ^ 256) b).drop 10⟩ : BrngCTRState))).1
      = (G theta ((baseToNat 256 iv0 + 1) % 2 ^ 256) b).drop 10 := by
    rw [brngCTRStepR]
    rw [if_pos (by rw [h22, hres])]
    simp only [h22]
    exact List.take_of_length_le (by rw [hres])
  have hcB : (brngCTRStepR G b (brngCTRStart theta iv0)).1
      = G theta ((baseToNat 256 iv0 + 1) % 2 ^ 256) b := by
    rw [brngCTRStepR]
    rw [if_neg (by simp [brngCTRStart, hlen])]
    simp only [brngCTRStart, List.length_nil, List.drop_zero, List.nil_append]
    rw [ctrGen, ctrGenB_single G theta _ _ _
      (List.length_pos.mp (by rw [hlen]; omega)) (le_of_eq hlen) (by rw [hlen]; omega),
      hlen]
    rw [show b.take 32 ++ List.replicate (32 - 32) 0 = b by
      simpa using List.take_of_length_le (le_of_eq hlen)]
    exact List.take_of_length_le (by rw [hG])
  rw [hc1, hcB]
  simp only []
  rw [hc2]
  exact List.take_append_drop 10 _

/-- C5 witness: the amended buffering theorem applied at the constant block
transform, with an all-zero initial buffer, key and synchronization value. -/
theorem brng_ctr_buffering_witness :
    ((∀ t : List Nat, ∀ i : Nat, ∀ X : List Nat,
        ((fun (_ : List Nat) (_ : Nat) (_ : List Nat) => List.replicate 32 (0 : Nat))
          t i X).length = 32) ∧
      (List.replicate 32 (0 : Nat)).length = 32 ∧
      (List.replicate 32 (0 : Nat)).drop 10 = List.replicate 22 0) ∧
    (brngCTRStepR (fun _ _ _ => List.replicate 32 0)
        ((List.replicate 32 (0 : Nat)).take 10)
        (brngCTRStart (List.replicate 32 0) (List.replicate 32 0))).1 ++
      (brngCTRStepR (fun _ _ _ => List.replicate 32 0)
        ((List.replicate 32 (0 : Nat)).drop 10)
        (brngCTRStepR (fun _ _ _ => List.replicate 32 0)
          ((List.replicate 32 (0 : Nat)).take 10)
          (brngCTRStart (List.replicate 32 0) (List.replicate 32 0))).2).1
      = (brngCTRStepR (fun _ _ _ => List.replicate 32 0) (List.replicate 32 (0 : Nat))
          (brngCTRStart (List.replicate 32 0) (List.replicate 32 0))).1 :=
  ⟨⟨fun _ _ _ => rfl, by decide, by decide⟩,
    brng_ctr_buffering (fun _ _ _ => List.replicate 32 0) (List.replicate 32 0)
      (List.replicate 32 0) (List.replicate 32 0) (fun _ _ _ => rfl)
      (by decide) (by decide)⟩

theorem ctrGenB_long (G : List Nat → Nat → List Nat → List Nat) (theta : List Nat)
    (fuel iv : Nat) (rest : List Nat) (hgt : 32 < rest.length) :
    ctrGenB G theta (fuel + 1) iv rest
      = (G theta ((iv + 1) % 2 ^ 256)
            (rest.take 32 ++ List.replicate (32 - rest.length) 0) ++
           (ctrGenB G theta fuel ((iv + 1) % 2 ^ 256) (rest.drop 32)).1,
         (ctrGenB G theta fuel ((iv + 1) % 2 ^ 256) (rest.drop 32)).2.1,
         (ctrGenB G theta fuel ((iv + 1) % 2 ^ 256) (rest.drop 32)).2.2) := by
  cases rest with
  | nil => simp at hgt
  | cons x rest' =>
    rw [List.length_cons] at hgt
    simp [ctrGenB, show ¬((x :: rest').length ≤ 32) from by rw [List.length_cons]; omega]
    intro h
    exact absurd h (by omega)

theorem ctrGenB_spec (G : List Nat → Nat → List Nat → List Nat) (theta : List Nat)
    (hG : ∀ t i X, (G t i X).length = 32) :
    ∀ (fuel : Nat) (rest : List Nat) (iv : Nat), rest.length ≤ fuel → iv < 2 ^ 256 →
      (ctrGenB G theta fuel iv rest).2.1 = (iv + blocksFor rest.length) % 2 ^ 256 ∧
      (ctrGenB G theta fuel iv rest).2.2.length
        = 32 * blocksFor rest.length - rest.length := by
  intro fuel
  induction fuel with
  | zero =>
    intro rest iv hf hiv
    have hnil : rest = [] := List.length_eq_zero.mp (by omega)
    subst hnil
    refine ⟨?_, ?_⟩
    · simp only [ctrGenB, blocksFor, List.length_nil]
      omega
    · simp [ctrGenB, blocksFor]
  | succ fuel ih =>
    intro rest iv hf hiv
    cases rest with
    | nil =>
      refine ⟨?_, ?_⟩
      · simp only [ctrGenB, blocksFor, List.length_nil]
        omega
      · simp [ctrGenB, blocksFor]
    | cons x rest' =>
      by_cases hle : (x :: rest').length ≤ 32
      · rw [ctrGenB_single G theta _ _ _ (by simp) hle (by omega)]
        refine ⟨?_, ?_⟩
        · simp only [blocksFor]
          have hb1 : ((x :: rest').length + 31) / 32 = 1 := by
            rw [List.length_cons] at hle ⊢
            omega
          rw [hb1]
        · rw [List.length_drop, hG]
          simp only [blocksFor]
          rw [List.length_cons] at hle ⊢
          omega
      · rw [ctrGenB_long G theta fuel iv (x :: rest')
          (by rw [List.length_cons]; rw [List.length_cons] at hle; omega)]
        have hdlen : ((x :: rest').drop 32).length = (x :: rest').length - 32 :=
          List.length_drop _ _
        have hih := ih ((x :: rest').drop 32) ((iv + 1) % 2 ^ 256)
          (by rw [hdlen]; rw [List.length_cons] at hf ⊢; omega)
          (Nat.mod_lt _ (by norm_num))
        refine ⟨?_, ?_⟩
        · show (ctrGenB G theta fuel ((iv + 1) % 2 ^ 256) ((x :: rest').drop 32)).2.1 = _
          rw [hih.1, hdlen, Nat.mod_add_mod]
          congr 1
          simp only [blocksFor]
          rw [List.length_cons] at hle ⊢
          omega
        · show (ctrGenB G theta fuel ((iv + 1) % 2 ^ 256) ((x :: rest').drop 32)).2.2.length = _
          rw [hih.2, hdlen]
          simp only [blocksFor]
          rw [List.length_cons] at hle ⊢
          omega

theorem brngCTRStepR_inv (G : List Nat → Nat → List Nat → List Nat)
    (hG : ∀ t i X, (G t i X).length = 32) (theta : List Nat) (v0 T : Nat)
    (hv0 : v0 < 2 ^ 256) (s : BrngCTRState) (buf : List Nat)
    (hs : ctrInv theta v0 T s) :
    ctrInv theta v0 (T + buf.length) (brngCTRStepR G buf s).2 := by
  obtain ⟨hth, hiv, hres⟩ := hs
  rw [brngCTRStepR]
  by_cases hc : buf.length ≤ s.reserved.length
  · rw [if_pos hc]
    rw [hres] at hc
    refine ⟨hth, ?_, ?_⟩
    · rw [hiv]
      congr 1
      simp only [blocksFor] at hc ⊢
      omega
    · simp only [List.length_drop]
      rw [hres]
      simp only [blocksFor] at hc ⊢
      omega
  · rw [if_neg hc]
    rw [hres] at hc
    have hivlt : s.iv < 2 ^ 256 := by
      rw [hiv]
      exact Nat.mod_lt _ (by norm_num)
    have hspec := ctrGenB_spec G s.theta hG (buf.drop s.reserved.length).length
      (buf.drop s.reserved.length) s.iv (le_refl _) hivlt
    refine ⟨hth, ?_, ?_⟩
    · show (ctrGen G s.theta s.iv (buf.drop s.reserved.length)).2.1 = _
      rw [ctrGen, hspec.1, hiv, Nat.mod_add_mod, List.length_drop, hres]
      congr 1
      simp only [blocksFor] at hc ⊢
      omega
    · show (ctrGen G s.theta s.iv (buf.drop s.reserved.length)).2.2.length = _
      rw [ctrGen, hspec.2, List.length_drop, hres]
      simp only [blocksFor] at hc ⊢
      omega

theorem ctrRunBufs_inv (G : List Nat → Nat → List Nat → List Nat)
    (hG : ∀ t i X, (G t i X).length = 32) (theta : List Nat) (v0 : Nat)
    (hv0 : v0 < 2 ^ 256) :
    ∀ (bufs : List (List Nat)) (T : Nat) (s : BrngCTRState), ctrInv theta v0 T s →
      ctrInv theta v0 (T + (bufs.map List.length).sum) (ctrRunBufs G s bufs) := by
  intro bufs
  induction bufs with
  | nil =>
    intro T s hs
    simpa [ctrRunBufs] using hs
  | cons b bufs ih =>
    intro T s hs
    have h1 := brngCTRStepR_inv G hG theta v0 T hv0 s b hs
    have h2 := ih (T + b.length) ((brngCTRStepR G b s).2) h1
    simp only [ctrRunBufs, List.foldl_cons] at h2 ⊢
    have harith : T + (List.map List.length (b :: bufs)).sum
        = T + b.length + (List.map List.length bufs).sum := by
      rw [List.map_cons, List.sum_cons]
      omega
    rw [harith]
    exact h2

theorem ctrInv_start (theta iv0 : List Nat) (hiv : iv0.length = 32)
    (hoct : ∀ x ∈ iv0, x < 256) (hv0 : baseToNat 256 iv0 < 2 ^ 256) :
    ctrInv theta (baseToNat 256 iv0) 0 (brngCTRStart theta iv0) := by
  refine ⟨rfl, ?_, ?_⟩
  · show baseToNat 256 iv0 = (baseToNat 256 iv0 + blocksFor 0) % 2 ^ 256
    simp only [blocksFor]
    omega
  · simp [brngCTRStart, blocksFor]

/-- C7: CTR IV evolution at block boundaries.  For a 32-octet key and a valid
32-octet starting synchronization value, after brngCTRStart and any sequence
of brngCTRStepR calls totalling at least 32 octets (and at most 32·(2^256−1)
octets, the range reachable before the 256-bit value cycles), the value
extracted by brngCTRStepG differs from the starting one; after 0 generated
octets it equals the starting one. -/
theorem brng_ctr_iv_evolution (G : List Nat → Nat → List Nat → List Nat)
    (theta iv0 : List Nat) (bufs : List (List Nat))
    (hG : ∀ t i X, (G t i X).length = 32)
    (hiv : iv0.length = 32) (hoct : ∀ x ∈ iv0, x < 256)
    (hbound : (bufs.map List.length).sum ≤ 32 * (2 ^ 256 - 1)) :
    (32 ≤ (bufs.map List.length).sum →
      (brngCTRStepG (ctrRunBufs G (brngCTRStart theta iv0) bufs)).1 ≠ iv0) ∧
    ((bufs.map List.length).sum = 0 →
      (brngCTRStepG (ctrRunBufs G (brngCTRStart theta iv0) bufs)).1 = iv0) := by
  have hv0lt : baseToNat 256 iv0 < 2 ^ 256 := by
    have h := baseToNat_lt 256 iv0 (by norm_num) hoct
    rw [hiv] at h
    calc baseToNat 256 iv0 < 256 ^ 32 := h
    _ = 2 ^ 256 := by norm_num
  have hinv := ctrRunBufs_inv G hG theta (baseToNat 256 iv0) hv0lt bufs 0
    (brngCTRStart theta iv0) (ctrInv_start theta iv0 hiv hoct hv0lt)
  have hext : (brngCTRStepG (ctrRunBufs G (brngCTRStart theta iv0) bufs)).1
      = natToBase 256 32
          ((baseToNat 256 iv0 + blocksFor (0 + (bufs.map List.length).sum)) % 2 ^ 256) := by
    rw [brngCTRStepG, hinv.2.1]
  constructor
  · intro h32 heq
    rw [hext] at heq
    have hval := congrArg (baseToNat 256) heq
    rw [baseToNat_natToBase 256 32 _ (by norm_num)] at hval
    have h2562 : (256 : Nat) ^ 32 = 2 ^ 256 := by norm_num
    rw [h2562, Nat.mod_mod_of_dvd _ dvd_rfl] at hval
    simp only [blocksFor, Nat.zero_add] at hval
    omega
  · intro h0
    rw [hext, h0]
    have hb0 : blocksFor (0 + 0) = 0 := by simp [blocksFor]
    rw [hb0, Nat.add_zero, Nat.mod_eq_of_lt hv0lt]
    have hrt := natToBase_baseToNat 256 iv0 (by norm_num) hoct
    rw [hiv] at hrt
    exact hrt

/-- C7 witness: the IV-evolution theorem applied at a concrete transform and
one 32-octet generation call; the extracted value differs from the start. -/
theorem brng_ctr_iv_evolution_witness :
    ((∀ t : List Nat, ∀ i : Nat, ∀ X : List Nat,
        ((fun (_ : List Nat) (_ : Nat) (_ : List Nat) => List.replicate 32 (0 : Nat))
          t i X).length = 32) ∧
      (List.replicate 32 (0 : Nat)).length = 32 ∧
      (∀ x ∈ List.replicate 32 (0 : Nat), x < 256) ∧
      (([List.replicate 32 (0 : Nat)].map List.length).sum ≤ 32 * (2 ^ 256 - 1)) ∧
      32 ≤ ([List.replicate 32 (0 : Nat)].map List.length).sum) ∧
    (brngCTRStepG (ctrRunBufs (fun _ _ _ => List.replicate 32 0)
        (brngCTRStart (List.replicate 32 0) (List.replicate 32 0))
        [List.replicate 32 0])).1 ≠ List.replicate 32 0 :=
  ⟨⟨fun _ _ _ => rfl, by decide, by decide, by decide, by decide⟩,
    (brng_ctr_iv_evolution (fun _ _ _ => List.replicate 32 0) (List.replicate 32 0)
      (List.replicate 32 0) [List.replicate 32 0] (fun _ _ _ => rfl)
      (by decide) (by decide) (by decide)).1 (by decide)⟩

/-- C8: HMAC-PRG determinism and pure output.  brngHMACRand (equivalently
brngHMACStart followed by brngHMACStepR) is a pure function of (key, iv,
count): the prior contents of the caller's buffer do not enter the
computation, so any two buffers of the same length — and in particular two
runs with identical inputs — produce identical output octets and identical
final states. -/
theorem brng_hmac_pure_output (mac : Mac) (theta iv b1 b2 : List Nat)
    (hlen : b1.length = b2.length) :
    brngHMACRand mac b1 theta iv false = brngHMACRand mac b2 theta iv false ∧
    brngHMACStepR mac b1 (brngHMACStart mac theta iv)
      = brngHMACStepR mac b2 (brngHMACStart mac theta iv) := by
  have key : ∀ s : BrngHMACState, brngHMACStepR mac b1 s = brngHMACStepR mac b2 s := by
    intro s
    rw [brngHMACStepR, brngHMACStepR, hlen]
  exact ⟨by simp [brngHMACRand, key], key _⟩

/-- C8 witness: the purity theorem applied at a constant MAC and two
different 4-octet initial buffer contents. -/
theorem brng_hmac_pure_output_witness :
    (List.replicate 4 (7 : Nat)).length = (List.replicate 4 (9 : Nat)).length ∧
    (brngHMACRand (fun _ _ => List.replicate 32 0) (List.replicate 4 7) [] [] false
      = brngHMACRand (fun _ _ => List.replicate 32 0) (List.replicate 4 9) [] [] false ∧
     brngHMACStepR (fun _ _ => List.replicate 32 0) (List.replicate 4 7)
        (brngHMACStart (fun _ _ => List.replicate 32 0) [] [])
      = brngHMACStepR (fun _ _ => List.replicate 32 0) (List.replicate 4 9)
        (brngHMACStart (fun _ _ => List.replicate 32 0) [] [])) :=
  ⟨by decide,
    brng_hmac_pure_output (fun _ _ => List.replicate 32 0) [] []
      (List.replicate 4 7) (List.replicate 4 9) (by decide)⟩
